import Mathlib

/-!
Shallow embedding of the `monkey` lexical scanner (repository
`pawanmkr/interpreter`, files `src/token/token.go` and `src/lexer/lexer.go`),
together with proofs of the specification's claims about it.

Go strings are byte strings; we model them as `List Nat` with byte values
0..255 (no arithmetic ever overflows a byte, so no modular reduction is
needed).  Each Go function is translated one-to-one; the three `for` loops
of the lexer (`skipWhitespace`, `readIdentifier`, `readNumber`) are modelled
by a fueled loop `loopWhile` whose fuel provably dominates the loop's
iteration count, so that every definition is executable and the exact Go
loop equation `skipWhitespace l = if ws l.ch then skipWhitespace (readChar l)
else l` is recovered as a proved theorem (`skipWhitespace_eq` etc.).
-/

namespace Monkey

namespace token

/-- `type TokenType string` (token.go). -/
abbrev TokenType := String

/-- `type Token struct { Type TokenType; Literal string }` (token.go).
Field `Type` is written `type` (Lean reserves `Type`), `Literal` as
`literal`; the literal is the raw byte string. -/
structure Token where
  type : TokenType
  literal : List Nat
deriving DecidableEq, Repr

-- The token-type constants of token.go, with the same string values.
def ILLEGAL : TokenType := "ILLEGAL"
def EOF : TokenType := "EOF"
def IDENT : TokenType := "IDENT"
def INT : TokenType := "INT"
def ASSIGN : TokenType := "="
def PLUS : TokenType := "+"
def MINUS : TokenType := "-"
def BANG : TokenType := "!"
def ASTERISK : TokenType := "*"
def SLASH : TokenType := "/"
def LT : TokenType := "<"
def GT : TokenType := ">"
def COMMA : TokenType := ","
def SEMICOLON : TokenType := ";"
def LPAREN : TokenType := "("
def RPAREN : TokenType := ")"
def LBRACE : TokenType := "\x7b"
def RBRACE : TokenType := "\x7d"
def FUNCTION : TokenType := "FUNCTION"
def LET : TokenType := "LET"

/-- The `keywords` map of token.go: `"fn" ↦ FUNCTION`, `"let" ↦ LET`,
as an association list ("fn" = [102,110], "let" = [108,101,116]). -/
def keywords : List (List Nat × TokenType) :=
  [([102, 110], FUNCTION), ([108, 101, 116], LET)]

/-- `LookupIdent` (token.go): return the keyword tag when `ident` is in the
`keywords` map, `IDENT` otherwise. -/
def LookupIdent (ident : List Nat) : TokenType :=
  match keywords.lookup ident with
  | some tok => tok
  | none => IDENT

end token

namespace lexer

/-- The `Lexer` struct of lexer.go.  `ch` holds the current byte, with 0 as
the end-of-input sentinel. -/
structure Lexer where
  input : List Nat
  position : Nat
  readPosition : Nat
  ch : Nat
deriving DecidableEq, Repr

/-- `readChar` (lexer.go): load `input[readPosition]` (or the sentinel 0 when
past the end) into `ch`, then advance both cursors. -/
def readChar (l : Lexer) : Lexer :=
  { l with
    ch := if l.input.length ≤ l.readPosition then 0 else l.input.getD l.readPosition 0,
    position := l.readPosition,
    readPosition := l.readPosition + 1 }

/-- `New` (lexer.go): start from zeroed cursors and prime the first
character with one `readChar`. -/
def New (input : List Nat) : Lexer :=
  readChar { input := input, position := 0, readPosition := 0, ch := 0 }

/-- `isLetter` (lexer.go): ASCII letter or underscore
(`'a'..'z'`, `'A'..'Z'`, `'_'` = 97..122, 65..90, 95). -/
def isLetter (ch : Nat) : Bool :=
  decide ((97 ≤ ch ∧ ch ≤ 122) ∨ (65 ≤ ch ∧ ch ≤ 90) ∨ ch = 95)

/-- `isDigit` (lexer.go): `'0' <= ch && ch <= '9'` (48..57). -/
def isDigit (ch : Nat) : Bool :=
  decide (48 ≤ ch ∧ ch ≤ 57)

/-- The loop condition of `skipWhitespace` (lexer.go):
space, tab, newline, carriage return (32, 9, 10, 13). -/
def isWhitespace (ch : Nat) : Bool :=
  decide (ch = 32 ∨ ch = 9 ∨ ch = 10 ∨ ch = 13)

/-- The 14 single-character symbols of `NextToken`'s switch
(`= + - ! / * < > ; , ( ) { }`).  Helper for stating claims; not a Go
function. -/
def isSymbol (ch : Nat) : Bool :=
  decide (ch = 61 ∨ ch = 43 ∨ ch = 45 ∨ ch = 33 ∨ ch = 47 ∨ ch = 42 ∨
    ch = 60 ∨ ch = 62 ∨ ch = 59 ∨ ch = 44 ∨ ch = 40 ∨ ch = 41 ∨
    ch = 123 ∨ ch = 125)

/-- Fueled `while p(ch) { readChar() }` loop.  The lexer's three loops are
instances; `loopWhile_eq` below shows the fuel chosen in `loopBound` is
always enough, recovering the exact Go loop equation. -/
def loopWhile (p : Nat → Bool) : Nat → Lexer → Lexer
  | 0, l => l
  | n + 1, l => if p l.ch then loopWhile p n (readChar l) else l

/-- Fuel that dominates the iteration count of any `loopWhile` run: each
iteration increments `readPosition`, and once `readPosition` passes the end
of the input `ch` becomes 0, on which no loop condition holds. -/
def loopBound (l : Lexer) : Nat :=
  l.input.length + 1 - l.readPosition + 1

/-- `skipWhitespace` (lexer.go):
`for ch is whitespace { readChar() }`. -/
def skipWhitespace (l : Lexer) : Lexer :=
  loopWhile isWhitespace (loopBound l) l

/-- The loop of `readIdentifier` (lexer.go): `for isLetter(ch) { readChar() }`. -/
def identRun (l : Lexer) : Lexer :=
  loopWhile isLetter (loopBound l) l

/-- The loop of `readNumber` (lexer.go): `for isDigit(ch) { readChar() }`. -/
def numberRun (l : Lexer) : Lexer :=
  loopWhile isDigit (loopBound l) l

/-- `readIdentifier` (lexer.go): run the letter loop, return the slice
`input[position₀ : position]` together with the mutated lexer. -/
def readIdentifier (l : Lexer) : List Nat × Lexer :=
  ((l.input.drop l.position).take ((identRun l).position - l.position), identRun l)

/-- `readNumber` (lexer.go): run the digit loop, return the slice
`input[position₀ : position]` together with the mutated lexer. -/
def readNumber (l : Lexer) : List Nat × Lexer :=
  ((l.input.drop l.position).take ((numberRun l).position - l.position), numberRun l)

/-- Go's `string(ch)` conversion for a byte `ch` (used by `newToken`,
lexer.go): converting an integer to `string` yields the UTF-8 encoding of
that code point, e.g. `string(0xf8) == "\xc3\xb8"`.  For a byte 0..127
this is the byte itself; for 128..255 it is the two-byte encoding
`[0xC0 + ch/64, 0x80 + ch%64]`. -/
def stringOfChar (ch : Nat) : List Nat :=
  if ch < 128 then [ch] else [192 + ch / 64, 128 + ch % 64]

/-- `newToken` (lexer.go): a single-character token; its Literal is
`string(ch)`, the UTF-8 encoding of the byte. -/
def newToken (tokenType : token.TokenType) (ch : Nat) : token.Token :=
  { type := tokenType, literal := stringOfChar ch }

/-- The switch of `NextToken` (lexer.go), operating on the state left by
`skipWhitespace`.  The switch is rendered as an if-chain over the byte
values `'='`=61, `'+'`=43, `'-'`=45, `'!'`=33, `'/'`=47, `'*'`=42,
`'<'`=60, `'>'`=62, `';'`=59, `','`=44, `'('`=40, `')'`=41, `'{'`=123,
`'}'`=125.  The identifier and digit branches return without the trailing
`readChar`; every other branch — including the EOF branch — falls through
to it, exactly as in the source. -/
def classify (l : Lexer) : token.Token × Lexer :=
  if l.ch = 61 then (newToken token.ASSIGN l.ch, readChar l)
  else if l.ch = 43 then (newToken token.PLUS l.ch, readChar l)
  else if l.ch = 45 then (newToken token.MINUS l.ch, readChar l)
  else if l.ch = 33 then (newToken token.BANG l.ch, readChar l)
  else if l.ch = 47 then (newToken token.SLASH l.ch, readChar l)
  else if l.ch = 42 then (newToken token.ASTERISK l.ch, readChar l)
  else if l.ch = 60 then (newToken token.LT l.ch, readChar l)
  else if l.ch = 62 then (newToken token.GT l.ch, readChar l)
  else if l.ch = 59 then (newToken token.SEMICOLON l.ch, readChar l)
  else if l.ch = 44 then (newToken token.COMMA l.ch, readChar l)
  else if l.ch = 40 then (newToken token.LPAREN l.ch, readChar l)
  else if l.ch = 41 then (newToken token.RPAREN l.ch, readChar l)
  else if l.ch = 123 then (newToken token.LBRACE l.ch, readChar l)
  else if l.ch = 125 then (newToken token.RBRACE l.ch, readChar l)
  else if isLetter l.ch then
    ({ type := token.LookupIdent (readIdentifier l).1, literal := (readIdentifier l).1 },
      (readIdentifier l).2)
  else if isDigit l.ch then
    ({ type := token.INT, literal := (readNumber l).1 }, (readNumber l).2)
  else if l.ch = 0 then
    ({ type := token.EOF, literal := [] }, readChar l)
  else
    (newToken token.ILLEGAL l.ch, readChar l)

/-- `NextToken` (lexer.go).  The Go method first skips whitespace and then
runs the switch (`classify`); it mutates the receiver and returns a token,
so we return the token together with the mutated lexer. -/
def NextToken (l : Lexer) : token.Token × Lexer :=
  classify (skipWhitespace l)

/-- The token produced at end of input: Type EOF, empty Literal. -/
def eofToken : token.Token :=
  { type := token.EOF, literal := [] }

/-- The lexer state after one `NextToken` call (the mutated receiver). -/
def advance (l : Lexer) : Lexer :=
  (NextToken l).2

/-- The token returned by the `(n+1)`-th `NextToken` call on `l`
(`n = 0` is the first call). -/
def tokenAt (l : Lexer) (n : Nat) : token.Token :=
  (NextToken (advance^[n] l)).1

/-- Driver loop: call `NextToken` repeatedly, collecting tokens up to and
including the first EOF token.  `fuel` bounds the number of calls. -/
def scanGo : Nat → Lexer → List token.Token
  | 0, _ => []
  | fuel + 1, l =>
    if (NextToken l).1.type = token.EOF then [(NextToken l).1]
    else (NextToken l).1 :: scanGo fuel (NextToken l).2

/-- The full token sequence of an input: tokens of successive `NextToken`
calls on a fresh lexer, up to and including the first EOF token.  A fuel of
`length + 1` always suffices (`scanGo_complete` below): each non-EOF token
consumes at least one byte. -/
def tokenize (input : List Nat) : List token.Token :=
  scanGo (input.length + 1) (New input)

/-- Number of lexemes of an input: the tokens before the terminal EOF. -/
def numLexemes (input : List Nat) : Nat :=
  (tokenize input).length - 1

/-- The input bytes not yet consumed (the suffix from `position` on). -/
def rest (l : Lexer) : List Nat :=
  l.input.drop l.position

/-- Well-formedness of a lexer state: the two cursors are in lock-step and
`ch` caches the byte at `position` (0 past the end).  Established by
`readChar`, hence by construction, and preserved by every call. -/
def Canon (l : Lexer) : Prop :=
  l.readPosition = l.position + 1 ∧ l.ch = (rest l).headD 0

/-- The lexer states reachable from construction by `NextToken` calls. -/
inductive Reachable (input : List Nat) : Lexer → Prop
  | start : Reachable input (New input)
  | step (l : Lexer) : Reachable input l → Reachable input (advance l)

end lexer

open token lexer

/-! ### Pure reference scanner

A positionless scanner on the remaining input, mirroring `NextToken`
branch for branch.  `nextToken_sim` proves it simulates the Go lexer on
well-formed states; the structural claims are proved against it and
transported. -/

/-- One scan step on the remaining input, after whitespace has been
dropped; mirrors the branch structure of `NextToken` exactly. -/
def nextTokCore : List Nat → token.Token × List Nat
  | [] => (eofToken, [])
  | c :: cs =>
    if c = 61 then (newToken token.ASSIGN c, cs)
    else if c = 43 then (newToken token.PLUS c, cs)
    else if c = 45 then (newToken token.MINUS c, cs)
    else if c = 33 then (newToken token.BANG c, cs)
    else if c = 47 then (newToken token.SLASH c, cs)
    else if c = 42 then (newToken token.ASTERISK c, cs)
    else if c = 60 then (newToken token.LT c, cs)
    else if c = 62 then (newToken token.GT c, cs)
    else if c = 59 then (newToken token.SEMICOLON c, cs)
    else if c = 44 then (newToken token.COMMA c, cs)
    else if c = 40 then (newToken token.LPAREN c, cs)
    else if c = 41 then (newToken token.RPAREN c, cs)
    else if c = 123 then (newToken token.LBRACE c, cs)
    else if c = 125 then (newToken token.RBRACE c, cs)
    else if isLetter c then
      ({ type := token.LookupIdent ((c :: cs).takeWhile isLetter),
         literal := (c :: cs).takeWhile isLetter }, (c :: cs).dropWhile isLetter)
    else if isDigit c then
      ({ type := token.INT, literal := (c :: cs).takeWhile isDigit },
        (c :: cs).dropWhile isDigit)
    else if c = 0 then (eofToken, cs)
    else (newToken token.ILLEGAL c, cs)

/-- One full scan step: skip whitespace, then classify. -/
def nextTok (s : List Nat) : token.Token × List Nat :=
  nextTokCore (s.dropWhile isWhitespace)

/-- The remaining input after one scan step. -/
def pureAdv (s : List Nat) : List Nat :=
  (nextTok s).2

/-- Fueled pure scan, mirroring `scanGo`. -/
def pureScan : Nat → List Nat → List token.Token
  | 0, _ => []
  | fuel + 1, s =>
    if (nextTok s).1.type = token.EOF then [(nextTok s).1]
    else (nextTok s).1 :: pureScan fuel (nextTok s).2

/-- Pure token sequence of a byte string (fuel `length + 1` suffices). -/
def pureTokens (s : List Nat) : List token.Token :=
  pureScan (s.length + 1) s

/-! ### Lexeme vocabulary, for the whitespace-invisibility claim -/

/-- A byte string that the scanner consumes as exactly one token:
a single fixed symbol, a nonempty letter/underscore run, a nonempty digit
run, or a single unclassifiable byte. -/
inductive IsLexeme : List Nat → Prop
  | symbol (c : Nat) : isSymbol c = true → IsLexeme [c]
  | ident (x : List Nat) : x ≠ [] → (∀ c ∈ x, isLetter c = true) → IsLexeme x
  | number (x : List Nat) : x ≠ [] → (∀ c ∈ x, isDigit c = true) → IsLexeme x
  | illegal (c : Nat) : isSymbol c = false → isLetter c = false →
      isDigit c = false → isWhitespace c = false → c ≠ 0 → IsLexeme [c]

/-- A byte string consisting solely of whitespace. -/
def AllWS (w : List Nat) : Prop :=
  ∀ c ∈ w, isWhitespace c = true

/-- Interleave lexemes with their trailing whitespace separators. -/
def joinPairs : List (List Nat × List Nat) → List Nat
  | [] => []
  | p :: ps => p.1 ++ (p.2 ++ joinPairs ps)

/-- The boundary after lexeme `x` is safe against the byte string `s` that
follows: a letter run must not be followed directly by a letter, a digit
run not by a digit (otherwise the two runs would merge into one lexeme). -/
def BoundaryOK (x s : List Nat) : Prop :=
  ((∀ c ∈ x, isLetter c = true) → isLetter (s.headD 0) = false) ∧
  ((∀ c ∈ x, isDigit c = true) → isDigit (s.headD 0) = false)

/-- Every empty separator in the interleaving sits at a merge-safe
boundary. -/
def OkSeps : List (List Nat × List Nat) → Prop
  | [] => True
  | (x, w) :: ps => (w = [] → BoundaryOK x (joinPairs ps)) ∧ OkSeps ps

/-- The 14 fixed-symbol token types. -/
def symbolTypes : List token.TokenType :=
  [token.ASSIGN, token.PLUS, token.MINUS, token.BANG, token.SLASH,
   token.ASTERISK, token.LT, token.GT, token.SEMICOLON, token.COMMA,
   token.LPAREN, token.RPAREN, token.LBRACE, token.RBRACE]

end Monkey

namespace Monkey

open token lexer

/-! ### Basic facts about `readChar` and well-formed states -/

theorem readChar_input (l : Lexer) : (readChar l).input = l.input := rfl

theorem readChar_position (l : Lexer) : (readChar l).position = l.readPosition := rfl

theorem readChar_readPosition (l : Lexer) :
    (readChar l).readPosition = l.readPosition + 1 := rfl

theorem headD_drop (xs : List Nat) : ∀ n, (xs.drop n).headD 0 = xs.getD n 0 := by
  induction xs with
  | nil => intro n; simp [List.getD]
  | cons x xs ih =>
    intro n
    cases n with
    | zero => simp
    | succ n => simp [ih n]

theorem readChar_ch (l : Lexer) :
    (readChar l).ch = (l.input.drop l.readPosition).headD 0 := by
  show (if l.input.length ≤ l.readPosition then 0 else l.input.getD l.readPosition 0) = _
  by_cases h : l.input.length ≤ l.readPosition
  · rw [if_pos h, List.drop_eq_nil_of_le h]
    rfl
  · rw [if_neg h, headD_drop]

theorem readChar_canon (l : Lexer) : Canon (readChar l) :=
  ⟨rfl, readChar_ch l⟩

theorem New_canon (input : List Nat) : Canon (New input) :=
  readChar_canon _

theorem rest_New (input : List Nat) : rest (New input) = input := rfl

theorem rest_readChar (l : Lexer) (h : Canon l) :
    rest (readChar l) = (rest l).tail := by
  show l.input.drop l.readPosition = (l.input.drop l.position).tail
  rw [h.1, List.tail_drop]

/-! ### The Go loop equations for the three fueled loops -/

theorem loopWhile_eq (p : Nat → Bool) (hp : p 0 = false) (l : Lexer) :
    loopWhile p (loopBound l) l =
      if p l.ch then loopWhile p (loopBound (readChar l)) (readChar l) else l := by
  have e0 : loopWhile p (loopBound l) l =
      if p l.ch then loopWhile p (l.input.length + 1 - l.readPosition) (readChar l) else l := rfl
  rw [e0]
  cases hch : p l.ch with
  | false => simp
  | true =>
    simp only [if_true]
    by_cases hrp : l.readPosition ≤ l.input.length
    · have hb : loopBound (readChar l) = l.input.length + 1 - l.readPosition := by
        unfold loopBound
        show l.input.length + 1 - (l.readPosition + 1) + 1 = _
        omega
      rw [hb]
    · have h0 : l.input.length + 1 - l.readPosition = 0 := by omega
      have hb : loopBound (readChar l) = 1 := by
        unfold loopBound
        show l.input.length + 1 - (l.readPosition + 1) + 1 = 1
        omega
      rw [h0, hb]
      have hch' : (readChar l).ch = 0 := by
        show (if l.input.length ≤ l.readPosition then 0 else _) = 0
        rw [if_pos (by omega)]
      have e1 : loopWhile p 1 (readChar l) =
          if p (readChar l).ch then loopWhile p 0 (readChar (readChar l)) else readChar l := rfl
      rw [e1, hch', hp]
      rfl

theorem skipWhitespace_eq (l : Lexer) :
    skipWhitespace l = if isWhitespace l.ch then skipWhitespace (readChar l) else l :=
  loopWhile_eq isWhitespace (by decide) l

theorem identRun_eq (l : Lexer) :
    identRun l = if isLetter l.ch then identRun (readChar l) else l :=
  loopWhile_eq isLetter (by decide) l

theorem numberRun_eq (l : Lexer) :
    numberRun l = if isDigit l.ch then numberRun (readChar l) else l :=
  loopWhile_eq isDigit (by decide) l

/-! ### Simulation of the loops on the remaining input -/

theorem loopWhile_sim (p : Nat → Bool) (hp : p 0 = false) :
    ∀ (r : List Nat) (l : Lexer), Canon l → rest l = r →
      (loopWhile p (loopBound l) l).input = l.input ∧
      Canon (loopWhile p (loopBound l) l) ∧
      rest (loopWhile p (loopBound l) l) = r.dropWhile p ∧
      (loopWhile p (loopBound l) l).position = l.position + (r.takeWhile p).length := by
  intro r
  induction r with
  | nil =>
    intro l hc hr
    have hch : l.ch = 0 := by rw [hc.2, hr]; rfl
    rw [loopWhile_eq p hp l, hch, hp]
    simp only [Bool.false_eq_true, if_false]
    exact ⟨by simp, hc, by simpa using hr, by simp⟩
  | cons c cs ih =>
    intro l hc hr
    have hch : l.ch = c := by rw [hc.2, hr]; rfl
    rw [loopWhile_eq p hp l, hch]
    cases hpc : p c with
    | false =>
      simp only [Bool.false_eq_true, if_false]
      refine ⟨by simp, hc, ?_, ?_⟩
      · rw [hr, List.dropWhile_cons, hpc]
        simp
      · rw [List.takeWhile_cons, hpc]
        simp
    | true =>
      simp only [if_true]
      have hc' := readChar_canon l
      have hr' : rest (readChar l) = cs := by rw [rest_readChar l hc, hr]; rfl
      obtain ⟨h1, h2, h3, h4⟩ := ih (readChar l) hc' hr'
      refine ⟨by rw [h1]; rfl, h2, ?_, ?_⟩
      · rw [h3, List.dropWhile_cons, hpc]
        simp
      · rw [h4, readChar_position, hc.1, List.takeWhile_cons, hpc]
        simp
        omega

theorem skipWhitespace_sim (l : Lexer) (hc : Canon l) :
    (skipWhitespace l).input = l.input ∧ Canon (skipWhitespace l) ∧
      rest (skipWhitespace l) = (rest l).dropWhile isWhitespace := by
  have h := loopWhile_sim isWhitespace (by decide) (rest l) l hc rfl
  exact ⟨h.1, h.2.1, h.2.2.1⟩

theorem identRun_sim (l : Lexer) (hc : Canon l) :
    (identRun l).input = l.input ∧ Canon (identRun l) ∧
      rest (identRun l) = (rest l).dropWhile isLetter ∧
      (identRun l).position = l.position + ((rest l).takeWhile isLetter).length :=
  loopWhile_sim isLetter (by decide) (rest l) l hc rfl

theorem numberRun_sim (l : Lexer) (hc : Canon l) :
    (numberRun l).input = l.input ∧ Canon (numberRun l) ∧
      rest (numberRun l) = (rest l).dropWhile isDigit ∧
      (numberRun l).position = l.position + ((rest l).takeWhile isDigit).length :=
  loopWhile_sim isDigit (by decide) (rest l) l hc rfl

theorem take_takeWhile_length (p : Nat → Bool) (xs : List Nat) :
    xs.take (xs.takeWhile p).length = xs.takeWhile p := by
  induction xs with
  | nil => rfl
  | cons x xs ih =>
    rw [List.takeWhile_cons]
    cases hpx : p x with
    | false => simp
    | true => simp [ih]

theorem readIdentifier_sim (l : Lexer) (hc : Canon l) :
    readIdentifier l = ((rest l).takeWhile isLetter, identRun l) := by
  unfold readIdentifier
  obtain ⟨-, -, -, h4⟩ := identRun_sim l hc
  rw [h4]
  show ((rest l).take (l.position + ((rest l).takeWhile isLetter).length - l.position),
    identRun l) = _
  rw [Nat.add_sub_cancel_left, take_takeWhile_length]

theorem readNumber_sim (l : Lexer) (hc : Canon l) :
    readNumber l = ((rest l).takeWhile isDigit, numberRun l) := by
  unfold readNumber
  obtain ⟨-, -, -, h4⟩ := numberRun_sim l hc
  rw [h4]
  show ((rest l).take (l.position + ((rest l).takeWhile isDigit).length - l.position),
    numberRun l) = _
  rw [Nat.add_sub_cancel_left, take_takeWhile_length]

end Monkey

namespace Monkey

open token lexer

theorem classify_sim (l : Lexer) (hc : Canon l) :
    (classify l).1 = (nextTokCore (rest l)).1 ∧
    Canon (classify l).2 ∧
    (classify l).2.input = l.input ∧
    rest (classify l).2 = (nextTokCore (rest l)).2 := by
  rcases hr : rest l with - | ⟨c, cs⟩
  · have hch : l.ch = 0 := by rw [hc.2, hr]; rfl
    unfold classify
    simp only [nextTokCore]
    rw [hch, if_neg (show ¬ (0 : Nat) = 61 by decide), if_neg (show ¬ (0 : Nat) = 43 by decide),
      if_neg (show ¬ (0 : Nat) = 45 by decide), if_neg (show ¬ (0 : Nat) = 33 by decide),
      if_neg (show ¬ (0 : Nat) = 47 by decide), if_neg (show ¬ (0 : Nat) = 42 by decide),
      if_neg (show ¬ (0 : Nat) = 60 by decide), if_neg (show ¬ (0 : Nat) = 62 by decide),
      if_neg (show ¬ (0 : Nat) = 59 by decide), if_neg (show ¬ (0 : Nat) = 44 by decide),
      if_neg (show ¬ (0 : Nat) = 40 by decide), if_neg (show ¬ (0 : Nat) = 41 by decide),
      if_neg (show ¬ (0 : Nat) = 123 by decide), if_neg (show ¬ (0 : Nat) = 125 by decide),
      if_neg (show ¬ isLetter 0 = true by decide), if_neg (show ¬ isDigit 0 = true by decide),
      if_pos rfl]
    exact ⟨rfl, readChar_canon l, rfl,
      by show rest (readChar l) = []; rw [rest_readChar l hc, hr]; rfl⟩
  · have hch : l.ch = c := by rw [hc.2, hr]; rfl
    have hrc : rest (readChar l) = cs := by rw [rest_readChar l hc, hr]; rfl
    have symLeaf : Canon (readChar l) := readChar_canon l
    unfold classify
    simp only [nextTokCore]
    rw [hch]
    by_cases h1 : c = 61
    · rw [if_pos h1, if_pos h1]; exact ⟨rfl, symLeaf, rfl, hrc⟩
    rw [if_neg h1, if_neg h1]
    by_cases h2 : c = 43
    · rw [if_pos h2, if_pos h2]; exact ⟨rfl, symLeaf, rfl, hrc⟩
    rw [if_neg h2, if_neg h2]
    by_cases h3 : c = 45
    · rw [if_pos h3, if_pos h3]; exact ⟨rfl, symLeaf, rfl, hrc⟩
    rw [if_neg h3, if_neg h3]
    by_cases h4 : c = 33
    · rw [if_pos h4, if_pos h4]; exact ⟨rfl, symLeaf, rfl, hrc⟩
    rw [if_neg h4, if_neg h4]
    by_cases h5 : c = 47
    · rw [if_pos h5, if_pos h5]; exact ⟨rfl, symLeaf, rfl, hrc⟩
    rw [if_neg h5, if_neg h5]
    by_cases h6 : c = 42
    · rw [if_pos h6, if_pos h6]; exact ⟨rfl, symLeaf, rfl, hrc⟩
    rw [if_neg h6, if_neg h6]
    by_cases h7 : c = 60
    · rw [if_pos h7, if_pos h7]; exact ⟨rfl, symLeaf, rfl, hrc⟩
    rw [if_neg h7, if_neg h7]
    by_cases h8 : c = 62
    · rw [if_pos h8, if_pos h8]; exact ⟨rfl, symLeaf, rfl, hrc⟩
    rw [if_neg h8, if_neg h8]
    by_cases h9 : c = 59
    · rw [if_pos h9, if_pos h9]; exact ⟨rfl, symLeaf, rfl, hrc⟩
    rw [if_neg h9, if_neg h9]
    by_cases h10 : c = 44
    · rw [if_pos h10, if_pos h10]; exact ⟨rfl, symLeaf, rfl, hrc⟩
    rw [if_neg h10, if_neg h10]
    by_cases h11 : c = 40
    · rw [if_pos h11, if_pos h11]; exact ⟨rfl, symLeaf, rfl, hrc⟩
    rw [if_neg h11, if_neg h11]
    by_cases h12 : c = 41
    · rw [if_pos h12, if_pos h12]; exact ⟨rfl, symLeaf, rfl, hrc⟩
    rw [if_neg h12, if_neg h12]
    by_cases h13 : c = 123
    · rw [if_pos h13, if_pos h13]; exact ⟨rfl, symLeaf, rfl, hrc⟩
    rw [if_neg h13, if_neg h13]
    by_cases h14 : c = 125
    · rw [if_pos h14, if_pos h14]; exact ⟨rfl, symLeaf, rfl, hrc⟩
    rw [if_neg h14, if_neg h14]
    by_cases hL : isLetter c = true
    · rw [if_pos hL, if_pos hL, readIdentifier_sim l hc, hr]
      have hi := identRun_sim l hc
      refine ⟨rfl, hi.2.1, hi.1, ?_⟩
      show rest (identRun l) = (c :: cs).dropWhile isLetter
      rw [hi.2.2.1, hr]
    rw [if_neg hL, if_neg hL]
    by_cases hD : isDigit c = true
    · rw [if_pos hD, if_pos hD, readNumber_sim l hc, hr]
      have hi := numberRun_sim l hc
      refine ⟨rfl, hi.2.1, hi.1, ?_⟩
      show rest (numberRun l) = (c :: cs).dropWhile isDigit
      rw [hi.2.2.1, hr]
    rw [if_neg hD, if_neg hD]
    by_cases h0 : c = 0
    · rw [if_pos h0, if_pos h0]
      exact ⟨rfl, symLeaf, rfl, hrc⟩
    rw [if_neg h0, if_neg h0]
    exact ⟨rfl, symLeaf, rfl, hrc⟩

theorem nextToken_sim (l : Lexer) (hc : Canon l) :
    (NextToken l).1 = (nextTok (rest l)).1 ∧
    Canon (NextToken l).2 ∧
    (NextToken l).2.input = l.input ∧
    rest (NextToken l).2 = (nextTok (rest l)).2 := by
  obtain ⟨hin, hc1, hr1⟩ := skipWhitespace_sim l hc
  have hpure : nextTok (rest l) = nextTokCore (rest (skipWhitespace l)) := by
    rw [nextTok, ← hr1]
  obtain ⟨a1, a2, a3, a4⟩ := classify_sim (skipWhitespace l) hc1
  exact ⟨by rw [hpure]; exact a1, a2, by rw [NextToken, a3, hin],
    by rw [hpure]; exact a4⟩

end Monkey

namespace Monkey

open token lexer

/-! ### Character-class arithmetic -/

theorem isSymbol_elim (c : Nat) (h : isSymbol c = false) :
    c ≠ 61 ∧ c ≠ 43 ∧ c ≠ 45 ∧ c ≠ 33 ∧ c ≠ 47 ∧ c ≠ 42 ∧ c ≠ 60 ∧ c ≠ 62 ∧
    c ≠ 59 ∧ c ≠ 44 ∧ c ≠ 40 ∧ c ≠ 41 ∧ c ≠ 123 ∧ c ≠ 125 := by
  simp only [isSymbol, decide_eq_false_iff_not] at h
  push_neg at h
  exact h

theorem isLetter_not_ws (c : Nat) (h : isLetter c = true) : isWhitespace c = false := by
  simp only [isLetter, decide_eq_true_eq] at h
  simp only [isWhitespace, decide_eq_false_iff_not]
  omega

theorem isDigit_not_ws (c : Nat) (h : isDigit c = true) : isWhitespace c = false := by
  simp only [isDigit, decide_eq_true_eq] at h
  simp only [isWhitespace, decide_eq_false_iff_not]
  omega

theorem isSymbol_not_ws (c : Nat) (h : isSymbol c = true) : isWhitespace c = false := by
  simp only [isSymbol, decide_eq_true_eq] at h
  simp only [isWhitespace, decide_eq_false_iff_not]
  omega

theorem isLetter_not_symbol (c : Nat) (h : isLetter c = true) : isSymbol c = false := by
  simp only [isLetter, decide_eq_true_eq] at h
  simp only [isSymbol, decide_eq_false_iff_not]
  omega

theorem isDigit_not_symbol (c : Nat) (h : isDigit c = true) : isSymbol c = false := by
  simp only [isDigit, decide_eq_true_eq] at h
  simp only [isSymbol, decide_eq_false_iff_not]
  omega

theorem isDigit_not_letter (c : Nat) (h : isDigit c = true) : isLetter c = false := by
  simp only [isDigit, decide_eq_true_eq] at h
  simp only [isLetter, decide_eq_false_iff_not]
  omega

theorem isLetter_ne_zero (c : Nat) (h : isLetter c = true) : c ≠ 0 := by
  simp only [isLetter, decide_eq_true_eq] at h
  omega

theorem isDigit_ne_zero (c : Nat) (h : isDigit c = true) : c ≠ 0 := by
  simp only [isDigit, decide_eq_true_eq] at h
  omega

theorem isSymbol_ne_zero (c : Nat) (h : isSymbol c = true) : c ≠ 0 := by
  simp only [isSymbol, decide_eq_true_eq] at h
  omega

theorem isSymbol_lt128 (c : Nat) (h : isSymbol c = true) : c < 128 := by
  simp only [isSymbol, decide_eq_true_eq] at h
  omega

theorem stringOfChar_ascii (c : Nat) (h : c < 128) : stringOfChar c = [c] := by
  rw [stringOfChar, if_pos h]

theorem stringOfChar_ne_nil (c : Nat) : stringOfChar c ≠ [] := by
  rw [stringOfChar]
  by_cases h : c < 128
  · rw [if_pos h]
    exact List.cons_ne_nil _ _
  · rw [if_neg h]
    exact List.cons_ne_nil _ _

theorem stringOfChar_length (c : Nat) :
    (stringOfChar c).length = 1 ∨ (stringOfChar c).length = 2 := by
  rw [stringOfChar]
  by_cases h : c < 128
  · rw [if_pos h]
    exact Or.inl rfl
  · rw [if_neg h]
    exact Or.inr rfl

theorem mem_stringOfChar_not_ws (a c : Nat) (ha : isWhitespace a = false)
    (hc : c ∈ stringOfChar a) : isWhitespace c = false := by
  rw [stringOfChar] at hc
  by_cases h : a < 128
  · rw [if_pos h] at hc
    rcases List.mem_singleton.mp hc with rfl
    exact ha
  · rw [if_neg h] at hc
    simp only [List.mem_cons, List.mem_singleton, List.not_mem_nil, or_false] at hc
    simp only [isWhitespace, decide_eq_false_iff_not]
    rcases hc with rfl | rfl
    · omega
    · omega

/-! ### Branch analysis of the pure core -/

theorem nextTokCore_cases (c : Nat) (cs : List Nat) :
    (isSymbol c = true ∧ ∃ tt, tt ∈ symbolTypes ∧
      ∀ cs2 : List Nat, nextTokCore (c :: cs2) = (newToken tt c, cs2)) ∨
    (isLetter c = true ∧
      nextTokCore (c :: cs) =
        ({ type := token.LookupIdent ((c :: cs).takeWhile isLetter),
           literal := (c :: cs).takeWhile isLetter }, (c :: cs).dropWhile isLetter)) ∨
    (isDigit c = true ∧
      nextTokCore (c :: cs) =
        ({ type := token.INT, literal := (c :: cs).takeWhile isDigit },
          (c :: cs).dropWhile isDigit)) ∨
    (isSymbol c = false ∧ isLetter c = false ∧ isDigit c = false ∧ c = 0 ∧
      nextTokCore (c :: cs) = (eofToken, cs)) ∨
    (isSymbol c = false ∧ isLetter c = false ∧ isDigit c = false ∧ c ≠ 0 ∧
      nextTokCore (c :: cs) = (newToken token.ILLEGAL c, cs)) := by
  simp only [nextTokCore]
  by_cases h1 : c = 61
  · exact Or.inl ⟨by simp [isSymbol, h1], token.ASSIGN, by simp [symbolTypes], fun cs2 => by subst h1; rfl⟩
  rw [if_neg h1]
  by_cases h2 : c = 43
  · exact Or.inl ⟨by simp [isSymbol, h2], token.PLUS, by simp [symbolTypes], fun cs2 => by subst h2; rfl⟩
  rw [if_neg h2]
  by_cases h3 : c = 45
  · exact Or.inl ⟨by simp [isSymbol, h3], token.MINUS, by simp [symbolTypes], fun cs2 => by subst h3; rfl⟩
  rw [if_neg h3]
  by_cases h4 : c = 33
  · exact Or.inl ⟨by simp [isSymbol, h4], token.BANG, by simp [symbolTypes], fun cs2 => by subst h4; rfl⟩
  rw [if_neg h4]
  by_cases h5 : c = 47
  · exact Or.inl ⟨by simp [isSymbol, h5], token.SLASH, by simp [symbolTypes], fun cs2 => by subst h5; rfl⟩
  rw [if_neg h5]
  by_cases h6 : c = 42
  · exact Or.inl ⟨by simp [isSymbol, h6], token.ASTERISK, by simp [symbolTypes], fun cs2 => by subst h6; rfl⟩
  rw [if_neg h6]
  by_cases h7 : c = 60
  · exact Or.inl ⟨by simp [isSymbol, h7], token.LT, by simp [symbolTypes], fun cs2 => by subst h7; rfl⟩
  rw [if_neg h7]
  by_cases h8 : c = 62
  · exact Or.inl ⟨by simp [isSymbol, h8], token.GT, by simp [symbolTypes], fun cs2 => by subst h8; rfl⟩
  rw [if_neg h8]
  by_cases h9 : c = 59
  · exact Or.inl ⟨by simp [isSymbol, h9], token.SEMICOLON, by simp [symbolTypes], fun cs2 => by subst h9; rfl⟩
  rw [if_neg h9]
  by_cases h10 : c = 44
  · exact Or.inl ⟨by simp [isSymbol, h10], token.COMMA, by simp [symbolTypes], fun cs2 => by subst h10; rfl⟩
  rw [if_neg h10]
  by_cases h11 : c = 40
  · exact Or.inl ⟨by simp [isSymbol, h11], token.LPAREN, by simp [symbolTypes], fun cs2 => by subst h11; rfl⟩
  rw [if_neg h11]
  by_cases h12 : c = 41
  · exact Or.inl ⟨by simp [isSymbol, h12], token.RPAREN, by simp [symbolTypes], fun cs2 => by subst h12; rfl⟩
  rw [if_neg h12]
  by_cases h13 : c = 123
  · exact Or.inl ⟨by simp [isSymbol, h13], token.LBRACE, by simp [symbolTypes], fun cs2 => by subst h13; rfl⟩
  rw [if_neg h13]
  by_cases h14 : c = 125
  · exact Or.inl ⟨by simp [isSymbol, h14], token.RBRACE, by simp [symbolTypes], fun cs2 => by subst h14; rfl⟩
  rw [if_neg h14]
  have hsym : isSymbol c = false := by
    simp only [isSymbol, decide_eq_false_iff_not]
    push_neg
    exact ⟨h1, h2, h3, h4, h5, h6, h7, h8, h9, h10, h11, h12, h13, h14⟩
  by_cases hL : isLetter c = true
  · exact Or.inr (Or.inl ⟨hL, by rw [if_pos hL]⟩)
  rw [if_neg hL]
  by_cases hD : isDigit c = true
  · exact Or.inr (Or.inr (Or.inl ⟨hD, by rw [if_pos hD]⟩))
  rw [if_neg hD]
  by_cases h0 : c = 0
  · exact Or.inr (Or.inr (Or.inr (Or.inl
      ⟨hsym, Bool.not_eq_true _ ▸ hL, Bool.not_eq_true _ ▸ hD, h0, by rw [if_pos h0]⟩)))
  rw [if_neg h0]
  exact Or.inr (Or.inr (Or.inr (Or.inr
    ⟨hsym, Bool.not_eq_true _ ▸ hL, Bool.not_eq_true _ ▸ hD, h0, rfl⟩)))

end Monkey

namespace Monkey

open token lexer

/-! ### List helpers -/

theorem dropWhile_head_false (p : Nat → Bool) :
    ∀ (l : List Nat) (c : Nat) (cs : List Nat), l.dropWhile p = c :: cs → p c = false := by
  intro l
  induction l with
  | nil => intro c cs h; cases h
  | cons a as ih =>
    intro c cs h
    rw [List.dropWhile_cons] at h
    by_cases hpa : p a = true
    · rw [if_pos hpa] at h
      exact ih c cs h
    · rw [if_neg hpa] at h
      cases h
      exact Bool.not_eq_true _ ▸ hpa

theorem takeWhile_all (p : Nat → Bool) :
    ∀ l : List Nat, (∀ c ∈ l, p c = true) → l.takeWhile p = l := by
  intro l
  induction l with
  | nil => intro; rfl
  | cons a as ih =>
    intro h
    rw [List.takeWhile_cons, if_pos (h a (List.mem_cons_self _ _)), ih (fun c hc => h c (List.mem_cons_of_mem a hc))]

theorem dropWhile_all (p : Nat → Bool) :
    ∀ l : List Nat, (∀ c ∈ l, p c = true) → l.dropWhile p = [] := by
  intro l
  induction l with
  | nil => intro; rfl
  | cons a as ih =>
    intro h
    rw [List.dropWhile_cons, if_pos (h a (List.mem_cons_self _ _))]
    exact ih (fun c hc => h c (List.mem_cons_of_mem a hc))

theorem dropWhile_head_stop (p : Nat → Bool) (l : List Nat)
    (h : p (l.headD 0) = false) : l.dropWhile p = l := by
  cases l with
  | nil => rfl
  | cons a as => rw [List.dropWhile_cons, if_neg (by simp_all)]

theorem takeWhile_append_stop (p : Nat → Bool) :
    ∀ (xs ys : List Nat), (∀ c ∈ xs, p c = true) → p (ys.headD 0) = false →
      (xs ++ ys).takeWhile p = xs ∧ (xs ++ ys).dropWhile p = ys := by
  intro xs
  induction xs with
  | nil =>
    intro ys hall hy
    constructor
    · rw [List.nil_append]
      cases ys with
      | nil => rfl
      | cons b bs => rw [List.takeWhile_cons, if_neg (by simp_all)]
    · rw [List.nil_append]
      exact dropWhile_head_stop p ys hy
  | cons a as ih =>
    intro ys hall hy
    obtain ⟨h1, h2⟩ := ih ys (fun c hc => hall c (List.mem_cons_of_mem a hc)) hy
    constructor
    · rw [List.cons_append, List.takeWhile_cons, if_pos (hall a (List.mem_cons_self _ _)), h1]
    · rw [List.cons_append, List.dropWhile_cons, if_pos (hall a (List.mem_cons_self _ _)), h2]

theorem mem_of_mem_dropWhile (p : Nat → Bool) (l : List Nat) (a : Nat)
    (h : a ∈ l.dropWhile p) : a ∈ l :=
  (List.dropWhile_sublist p).subset h

/-! ### The remaining input shrinks at every non-EOF step -/

theorem nextTok_snd_mem (s : List Nat) (a : Nat) (h : a ∈ (nextTok s).2) : a ∈ s := by
  have hsub : ∀ b ∈ s.dropWhile isWhitespace, b ∈ s :=
    fun b hb => mem_of_mem_dropWhile isWhitespace s b hb
  rw [nextTok] at h
  rcases hd : s.dropWhile isWhitespace with - | ⟨c, cs⟩
  · rw [hd] at h
    cases h
  · rw [hd] at h
    have hcons : ∀ b ∈ c :: cs, b ∈ s := fun b hb => hsub b (hd ▸ hb)
    rcases nextTokCore_cases c cs with ⟨-, tt, -, he⟩ | ⟨-, he⟩ | ⟨-, he⟩ |
        ⟨-, -, -, -, he⟩ | ⟨-, -, -, -, he⟩
    · rw [he cs] at h
      exact hcons a (List.mem_cons_of_mem c h)
    · rw [he] at h
      exact hcons a (mem_of_mem_dropWhile isLetter (c :: cs) a h)
    · rw [he] at h
      exact hcons a (mem_of_mem_dropWhile isDigit (c :: cs) a h)
    · rw [he] at h
      exact hcons a (List.mem_cons_of_mem c h)
    · rw [he] at h
      exact hcons a (List.mem_cons_of_mem c h)

theorem symbolTypes_ne_eof (tt : token.TokenType) (h : tt ∈ symbolTypes) :
    tt ≠ token.EOF := by
  fin_cases h <;> decide

theorem lookupIdent_spec (s : List Nat) :
    token.LookupIdent s =
      if s = [102, 110] then token.FUNCTION
      else if s = [108, 101, 116] then token.LET
      else token.IDENT := by
  by_cases h1 : s = [102, 110]
  · subst h1; decide
  rw [if_neg h1]
  by_cases h2 : s = [108, 101, 116]
  · subst h2; decide
  rw [if_neg h2]
  have b1 : ((s : List Nat) == [102, 110]) = false := beq_eq_false_iff_ne.mpr h1
  have b2 : ((s : List Nat) == [108, 101, 116]) = false := beq_eq_false_iff_ne.mpr h2
  simp [token.LookupIdent, token.keywords, List.lookup, b1, b2]

theorem lookupIdent_mem (s : List Nat) :
    token.LookupIdent s = token.FUNCTION ∨ token.LookupIdent s = token.LET ∨
      token.LookupIdent s = token.IDENT := by
  rw [lookupIdent_spec]
  by_cases h1 : s = [102, 110]
  · rw [if_pos h1]; exact Or.inl rfl
  rw [if_neg h1]
  by_cases h2 : s = [108, 101, 116]
  · rw [if_pos h2]; exact Or.inr (Or.inl rfl)
  rw [if_neg h2]; exact Or.inr (Or.inr rfl)

theorem lookupIdent_ne_eof (s : List Nat) : token.LookupIdent s ≠ token.EOF := by
  rcases lookupIdent_mem s with h | h | h <;> rw [h] <;> decide

theorem nextTok_dec (s : List Nat) (h : (nextTok s).1.type ≠ token.EOF) :
    (nextTok s).2.length < s.length := by
  have hlen : (s.dropWhile isWhitespace).length ≤ s.length :=
    (List.dropWhile_sublist isWhitespace).length_le
  rw [nextTok] at h ⊢
  rcases hd : s.dropWhile isWhitespace with - | ⟨c, cs⟩
  · rw [hd] at h
    exact absurd rfl h
  · rw [hd] at h hlen
    rcases nextTokCore_cases c cs with ⟨-, tt, -, he⟩ | ⟨hL, he⟩ | ⟨hD, he⟩ |
        ⟨-, -, -, -, he⟩ | ⟨-, -, -, -, he⟩
    · rw [he cs]
      show cs.length < s.length
      simp only [List.length_cons] at hlen
      omega
    · rw [he]
      show ((c :: cs).dropWhile isLetter).length < s.length
      have hd2 : ((c :: cs).dropWhile isLetter).length ≤ cs.length := by
        rw [List.dropWhile_cons, if_pos hL]
        exact (List.dropWhile_sublist isLetter).length_le
      simp only [List.length_cons] at hlen
      omega
    · rw [he]
      show ((c :: cs).dropWhile isDigit).length < s.length
      have hd2 : ((c :: cs).dropWhile isDigit).length ≤ cs.length := by
        rw [List.dropWhile_cons, if_pos hD]
        exact (List.dropWhile_sublist isDigit).length_le
      simp only [List.length_cons] at hlen
      omega
    · rw [he] at h
      exact absurd rfl h
    · rw [he]
      show cs.length < s.length
      simp only [List.length_cons] at hlen
      omega

end Monkey

namespace Monkey

open token lexer

/-! ### Fuel irrelevance and the scan equations -/

theorem nextTok_nil : nextTok [] = (eofToken, []) := rfl

theorem pureScan_congr :
    ∀ (b f₁ f₂ : Nat) (s : List Nat), s.length ≤ b → s.length < f₁ → s.length < f₂ →
      pureScan f₁ s = pureScan f₂ s := by
  intro b
  induction b with
  | zero =>
    intro f₁ f₂ s hb h1 h2
    have hs : s = [] := List.length_eq_zero.mp (Nat.le_zero.mp hb)
    subst hs
    obtain ⟨a, rfl⟩ := Nat.exists_eq_succ_of_ne_zero (Nat.pos_iff_ne_zero.mp h1)
    obtain ⟨c, rfl⟩ := Nat.exists_eq_succ_of_ne_zero (Nat.pos_iff_ne_zero.mp h2)
    show (if (nextTok []).1.type = token.EOF then [(nextTok []).1]
      else (nextTok []).1 :: pureScan a (nextTok []).2) = _
    rw [nextTok_nil]
    rfl
  | succ b ih =>
    intro f₁ f₂ s hb h1 h2
    obtain ⟨a, rfl⟩ := Nat.exists_eq_succ_of_ne_zero (by omega : f₁ ≠ 0)
    obtain ⟨c, rfl⟩ := Nat.exists_eq_succ_of_ne_zero (by omega : f₂ ≠ 0)
    show (if (nextTok s).1.type = token.EOF then [(nextTok s).1]
      else (nextTok s).1 :: pureScan a (nextTok s).2) =
      (if (nextTok s).1.type = token.EOF then [(nextTok s).1]
      else (nextTok s).1 :: pureScan c (nextTok s).2)
    by_cases he : (nextTok s).1.type = token.EOF
    · rw [if_pos he, if_pos he]
    · rw [if_neg he, if_neg he]
      have hdec := nextTok_dec s he
      rw [ih a c (nextTok s).2 (by omega) (by omega) (by omega)]

theorem pureTokens_eq (s : List Nat) :
    pureTokens s =
      if (nextTok s).1.type = token.EOF then [(nextTok s).1]
      else (nextTok s).1 :: pureTokens (nextTok s).2 := by
  show pureScan (s.length + 1) s = _
  obtain ⟨a, ha⟩ : ∃ a, s.length + 1 = a + 1 := ⟨s.length, rfl⟩
  rw [ha]
  show (if (nextTok s).1.type = token.EOF then [(nextTok s).1]
    else (nextTok s).1 :: pureScan a (nextTok s).2) = _
  by_cases he : (nextTok s).1.type = token.EOF
  · rw [if_pos he, if_pos he]
  · rw [if_neg he, if_neg he]
    have hdec := nextTok_dec s he
    have ha' : a = s.length := by omega
    rw [ha', pureScan_congr (nextTok s).2.length s.length ((nextTok s).2.length + 1)
      (nextTok s).2 (le_refl _) (by omega) (by omega)]
    rfl

theorem pureTokens_ne_nil (s : List Nat) : pureTokens s ≠ [] := by
  rw [pureTokens_eq]
  by_cases he : (nextTok s).1.type = token.EOF
  · rw [if_pos he]
    exact List.cons_ne_nil _ _
  · rw [if_neg he]
    exact List.cons_ne_nil _ _

/-! ### Transport from the Go lexer to the pure scanner -/

theorem scanGo_sim : ∀ (fuel : Nat) (l : Lexer), Canon l →
    scanGo fuel l = pureScan fuel (rest l) := by
  intro fuel
  induction fuel with
  | zero => intro l hc; rfl
  | succ fuel ih =>
    intro l hc
    obtain ⟨t1, c2, -, r4⟩ := nextToken_sim l hc
    show (if (NextToken l).1.type = token.EOF then [(NextToken l).1]
      else (NextToken l).1 :: scanGo fuel (NextToken l).2) =
      (if (nextTok (rest l)).1.type = token.EOF then [(nextTok (rest l)).1]
      else (nextTok (rest l)).1 :: pureScan fuel (nextTok (rest l)).2)
    rw [t1, ← r4]
    by_cases he : (nextTok (rest l)).1.type = token.EOF
    · rw [if_pos he, if_pos he]
    · rw [if_neg he, if_neg he, ih (NextToken l).2 c2]

theorem tokenize_eq_pure (input : List Nat) : tokenize input = pureTokens input := by
  show scanGo (input.length + 1) (New input) = pureScan (input.length + 1) input
  rw [scanGo_sim (input.length + 1) (New input) (New_canon input), rest_New]

theorem advance_iterate_sim : ∀ (n : Nat) (l : Lexer), Canon l →
    Canon (advance^[n] l) ∧ rest (advance^[n] l) = pureAdv^[n] (rest l) := by
  intro n
  induction n with
  | zero => intro l hc; exact ⟨hc, rfl⟩
  | succ n ih =>
    intro l hc
    obtain ⟨-, c2, -, r4⟩ := nextToken_sim l hc
    rw [Function.iterate_succ_apply, Function.iterate_succ_apply]
    obtain ⟨ha, hb⟩ := ih (advance l) c2
    refine ⟨ha, ?_⟩
    rw [hb]
    show pureAdv^[n] (rest (NextToken l).2) = pureAdv^[n] (pureAdv (rest l))
    rw [r4]
    rfl

theorem tokenAt_pure (l : Lexer) (hc : Canon l) (n : Nat) :
    tokenAt l n = (nextTok (pureAdv^[n] (rest l))).1 := by
  obtain ⟨hcn, hrn⟩ := advance_iterate_sim n l hc
  show (NextToken (advance^[n] l)).1 = _
  rw [(nextToken_sim (advance^[n] l) hcn).1, hrn]

end Monkey

namespace Monkey

open token lexer

/-! ### Per-branch equations for the pure core -/

theorem nextTokCore_symbol (c : Nat) (h : isSymbol c = true) :
    ∃ tt, tt ∈ symbolTypes ∧ ∀ cs : List Nat, nextTokCore (c :: cs) = (newToken tt c, cs) := by
  rcases nextTokCore_cases c [] with ⟨-, tt, htt, he⟩ | ⟨hL, -⟩ | ⟨hD, -⟩ |
      ⟨hs, -, -, -, -⟩ | ⟨hs, -, -, -, -⟩
  · exact ⟨tt, htt, he⟩
  · rw [isLetter_not_symbol c hL] at h
    cases h
  · rw [isDigit_not_symbol c hD] at h
    cases h
  · rw [hs] at h
    cases h
  · rw [hs] at h
    cases h

theorem nextTokCore_letter (c : Nat) (cs : List Nat) (hL : isLetter c = true) :
    nextTokCore (c :: cs) =
      ({ type := token.LookupIdent ((c :: cs).takeWhile isLetter),
         literal := (c :: cs).takeWhile isLetter }, (c :: cs).dropWhile isLetter) := by
  rcases nextTokCore_cases c cs with ⟨hs, -, -, -⟩ | ⟨-, he⟩ | ⟨hD, -⟩ |
      ⟨-, hL2, -, -, -⟩ | ⟨-, hL2, -, -, -⟩
  · rw [isLetter_not_symbol c hL] at hs
    cases hs
  · exact he
  · rw [isDigit_not_letter c hD] at hL
    cases hL
  · rw [hL2] at hL
    cases hL
  · rw [hL2] at hL
    cases hL

theorem nextTokCore_digit (c : Nat) (cs : List Nat) (hD : isDigit c = true) :
    nextTokCore (c :: cs) =
      ({ type := token.INT, literal := (c :: cs).takeWhile isDigit },
        (c :: cs).dropWhile isDigit) := by
  rcases nextTokCore_cases c cs with ⟨hs, -, -, -⟩ | ⟨hL, -⟩ | ⟨-, he⟩ |
      ⟨-, -, hD2, -, -⟩ | ⟨-, -, hD2, -, -⟩
  · rw [isDigit_not_symbol c hD] at hs
    cases hs
  · rw [isDigit_not_letter c hD] at hL
    cases hL
  · exact he
  · rw [hD2] at hD
    cases hD
  · rw [hD2] at hD
    cases hD

theorem nextTokCore_illegal (c : Nat) (cs : List Nat) (hs : isSymbol c = false)
    (hL : isLetter c = false) (hD : isDigit c = false) (h0 : c ≠ 0) :
    nextTokCore (c :: cs) = (newToken token.ILLEGAL c, cs) := by
  rcases nextTokCore_cases c cs with ⟨hs2, -, -, -⟩ | ⟨hL2, -⟩ | ⟨hD2, -⟩ |
      ⟨-, -, -, h02, -⟩ | ⟨-, -, -, -, he⟩
  · rw [hs] at hs2
    cases hs2
  · rw [hL] at hL2
    cases hL2
  · rw [hD] at hD2
    cases hD2
  · exact absurd h02 h0
  · exact he

theorem isWhitespace_not_letter (c : Nat) (h : isWhitespace c = true) :
    isLetter c = false := by
  simp only [isWhitespace, decide_eq_true_eq] at h
  simp only [isLetter, decide_eq_false_iff_not]
  omega

theorem isWhitespace_not_digit (c : Nat) (h : isWhitespace c = true) :
    isDigit c = false := by
  simp only [isWhitespace, decide_eq_true_eq] at h
  simp only [isDigit, decide_eq_false_iff_not]
  omega

theorem isLetter_not_digit (c : Nat) (h : isLetter c = true) : isDigit c = false := by
  simp only [isLetter, decide_eq_true_eq] at h
  simp only [isDigit, decide_eq_false_iff_not]
  omega

/-! ### Scan steps for whitespace and for single lexemes -/

theorem allWS_dropWhile (w : List Nat) (hw : AllWS w) (s : List Nat) :
    (w ++ s).dropWhile isWhitespace = s.dropWhile isWhitespace := by
  induction w with
  | nil => rfl
  | cons a as ih =>
    rw [List.cons_append, List.dropWhile_cons, if_pos (hw a (List.mem_cons_self _ _))]
    exact ih (fun c hc => hw c (List.mem_cons_of_mem a hc))

theorem nextTok_ws_strip (w : List Nat) (hw : AllWS w) (s : List Nat) :
    nextTok (w ++ s) = nextTok s := by
  rw [nextTok, nextTok, allWS_dropWhile w hw s]

theorem pureTokens_ws_strip (w : List Nat) (hw : AllWS w) (s : List Nat) :
    pureTokens (w ++ s) = pureTokens s := by
  rw [pureTokens_eq (w ++ s), pureTokens_eq s, nextTok_ws_strip w hw s]

theorem nextTok_of_head (c : Nat) (cs : List Nat) (hws : isWhitespace c = false) :
    nextTok (c :: cs) = nextTokCore (c :: cs) := by
  rw [nextTok, dropWhile_head_stop isWhitespace (c :: cs) (by simpa using hws)]

theorem pureTokens_nil : pureTokens [] = [eofToken] := by decide

theorem pureTokens_lexeme (x s : List Nat) (hx : IsLexeme x) (hb : BoundaryOK x s) :
    pureTokens (x ++ s) = (nextTok x).1 :: pureTokens s ∧
      (nextTok x).1.type ≠ token.EOF := by
  cases hx with
  | symbol c hs =>
    obtain ⟨tt, htt, he⟩ := nextTokCore_symbol c hs
    have hws : isWhitespace c = false := isSymbol_not_ws c hs
    have hx1 : nextTok ([c] ++ s) = (newToken tt c, s) := by
      rw [List.singleton_append, nextTok_of_head c s hws, he s]
    have hx2 : nextTok [c] = (newToken tt c, []) := by
      rw [nextTok_of_head c [] hws, he []]
    have hne : (newToken tt c).type ≠ token.EOF := symbolTypes_ne_eof tt htt
    refine ⟨?_, by rw [hx2]; exact hne⟩
    rw [pureTokens_eq ([c] ++ s), hx1, if_neg hne, hx2]
  | ident x hne hall =>
    rcases x with - | ⟨c, cs⟩
    · exact absurd rfl hne
    have hLc : isLetter c = true := hall c (List.mem_cons_self _ _)
    have hws : isWhitespace c = false := isLetter_not_ws c hLc
    have hbL : isLetter (s.headD 0) = false := hb.1 hall
    obtain ⟨ht, hd⟩ := takeWhile_append_stop isLetter (c :: cs) s hall hbL
    have hcons : (c :: cs) ++ s = c :: (cs ++ s) := rfl
    have hx1 : nextTok ((c :: cs) ++ s) =
        ({ type := token.LookupIdent (c :: cs), literal := c :: cs }, s) := by
      rw [hcons, nextTok_of_head c (cs ++ s) hws, nextTokCore_letter c (cs ++ s) hLc,
        ← hcons, ht, hd]
    have hx2 : nextTok (c :: cs) =
        ({ type := token.LookupIdent (c :: cs), literal := c :: cs }, []) := by
      rw [nextTok_of_head c cs hws, nextTokCore_letter c cs hLc,
        takeWhile_all isLetter (c :: cs) hall, dropWhile_all isLetter (c :: cs) hall]
    have hne2 : token.LookupIdent (c :: cs) ≠ token.EOF := lookupIdent_ne_eof (c :: cs)
    refine ⟨?_, by rw [hx2]; exact hne2⟩
    rw [pureTokens_eq ((c :: cs) ++ s), hx1, if_neg hne2, hx2]
  | number x hne hall =>
    rcases x with - | ⟨c, cs⟩
    · exact absurd rfl hne
    have hDc : isDigit c = true := hall c (List.mem_cons_self _ _)
    have hws : isWhitespace c = false := isDigit_not_ws c hDc
    have hbD : isDigit (s.headD 0) = false := hb.2 hall
    obtain ⟨ht, hd⟩ := takeWhile_append_stop isDigit (c :: cs) s hall hbD
    have hcons : (c :: cs) ++ s = c :: (cs ++ s) := rfl
    have hx1 : nextTok ((c :: cs) ++ s) =
        ({ type := token.INT, literal := c :: cs }, s) := by
      rw [hcons, nextTok_of_head c (cs ++ s) hws, nextTokCore_digit c (cs ++ s) hDc,
        ← hcons, ht, hd]
    have hx2 : nextTok (c :: cs) = ({ type := token.INT, literal := c :: cs }, []) := by
      rw [nextTok_of_head c cs hws, nextTokCore_digit c cs hDc,
        takeWhile_all isDigit (c :: cs) hall, dropWhile_all isDigit (c :: cs) hall]
    have hne2 : token.INT ≠ token.EOF := by decide
    refine ⟨?_, by rw [hx2]; exact hne2⟩
    rw [pureTokens_eq ((c :: cs) ++ s), hx1, if_neg hne2, hx2]
  | illegal c hs hL hD hw h0 =>
    have hx1 : nextTok ([c] ++ s) = (newToken token.ILLEGAL c, s) := by
      rw [List.singleton_append, nextTok_of_head c s hw, nextTokCore_illegal c s hs hL hD h0]
    have hx2 : nextTok [c] = (newToken token.ILLEGAL c, []) := by
      rw [nextTok_of_head c [] hw, nextTokCore_illegal c [] hs hL hD h0]
    have hne2 : (newToken token.ILLEGAL c).type ≠ token.EOF := by
      show token.ILLEGAL ≠ token.EOF
      decide
    refine ⟨?_, by rw [hx2]; exact hne2⟩
    rw [pureTokens_eq ([c] ++ s), hx1, if_neg hne2, hx2]

end Monkey

namespace Monkey

open token lexer

/-! ### The interleaving theorem kernel -/

theorem pureTokens_joinPairs :
    ∀ ps : List (List Nat × List Nat),
      (∀ p ∈ ps, IsLexeme p.1 ∧ AllWS p.2) → OkSeps ps →
      pureTokens (joinPairs ps) = ps.map (fun p => (nextTok p.1).1) ++ [eofToken] := by
  intro ps
  induction ps with
  | nil =>
    intro _ _
    exact pureTokens_nil
  | cons p ps ih =>
    rcases p with ⟨x, w⟩
    intro hall hsep
    have hx : IsLexeme x := (hall (x, w) (List.mem_cons_self _ _)).1
    have hw : AllWS w := (hall (x, w) (List.mem_cons_self _ _)).2
    have hbOK : BoundaryOK x (w ++ joinPairs ps) := by
      rcases w with - | ⟨wc, wcs⟩
      · have := hsep.1 rfl
        rwa [List.nil_append]
      · have hwc : isWhitespace wc = true := hw wc (List.mem_cons_self _ _)
        constructor
        · intro _
          show isLetter (((wc :: wcs) ++ joinPairs ps).headD 0) = false
          rw [List.cons_append]
          exact isWhitespace_not_letter wc hwc
        · intro _
          show isDigit (((wc :: wcs) ++ joinPairs ps).headD 0) = false
          rw [List.cons_append]
          exact isWhitespace_not_digit wc hwc
    obtain ⟨hstep, -⟩ := pureTokens_lexeme x (w ++ joinPairs ps) hx hbOK
    have hjoin : joinPairs ((x, w) :: ps) = x ++ (w ++ joinPairs ps) := rfl
    rw [hjoin, hstep, pureTokens_ws_strip w hw (joinPairs ps),
      ih (fun q hq => hall q (List.mem_cons_of_mem _ hq)) hsep.2]
    rfl

/-! ### No whitespace byte ever appears in a literal -/

theorem nextTok_literal_ws (s : List Nat) (c : Nat)
    (hc : c ∈ (nextTok s).1.literal) : isWhitespace c = false := by
  rw [nextTok] at hc
  rcases hd : s.dropWhile isWhitespace with - | ⟨a, as⟩
  · rw [hd] at hc
    simp [nextTokCore, eofToken] at hc
  · rw [hd] at hc
    have hwa : isWhitespace a = false := dropWhile_head_false isWhitespace s a as hd
    rcases nextTokCore_cases a as with ⟨-, tt, -, he⟩ | ⟨hL, he⟩ | ⟨hD, he⟩ |
        ⟨-, -, -, -, he⟩ | ⟨-, -, -, -, he⟩
    · rw [he as] at hc
      exact mem_stringOfChar_not_ws a c hwa hc
    · rw [he] at hc
      exact isLetter_not_ws c (List.mem_takeWhile_imp hc)
    · rw [he] at hc
      exact isDigit_not_ws c (List.mem_takeWhile_imp hc)
    · rw [he] at hc
      simp [eofToken] at hc
    · rw [he] at hc
      exact mem_stringOfChar_not_ws a c hwa hc

theorem pureTokens_literal_ws :
    ∀ (b : Nat) (s : List Nat), s.length ≤ b →
      ∀ t ∈ pureTokens s, ∀ c ∈ t.literal, isWhitespace c = false := by
  intro b
  induction b with
  | zero =>
    intro s hb t ht c hc
    have hs : s = [] := List.length_eq_zero.mp (Nat.le_zero.mp hb)
    subst hs
    rw [pureTokens_nil] at ht
    rcases List.mem_singleton.mp ht with rfl
    simp [eofToken] at hc
  | succ b ih =>
    intro s hb t ht c hc
    rw [pureTokens_eq] at ht
    by_cases he : (nextTok s).1.type = token.EOF
    · rw [if_pos he] at ht
      rcases List.mem_singleton.mp ht with rfl
      exact nextTok_literal_ws s c hc
    · rw [if_neg he] at ht
      rcases List.mem_cons.mp ht with rfl | htail
      · exact nextTok_literal_ws s c hc
      · have hdec := nextTok_dec s he
        exact ih (nextTok s).2 (by omega) t htail c hc

/-! ### EOF characterization on NUL-free inputs -/

theorem nextTok_of_ws_nil (s : List Nat) (h : s.dropWhile isWhitespace = []) :
    nextTok s = (eofToken, []) := by
  rw [nextTok, h]
  rfl

theorem nextTok_eof_ws_nil (s : List Nat) (h0 : (0 : Nat) ∉ s)
    (he : (nextTok s).1.type = token.EOF) : s.dropWhile isWhitespace = [] := by
  rcases hd : s.dropWhile isWhitespace with - | ⟨c, cs⟩
  · rfl
  exfalso
  have hcmem : c ∈ s :=
    mem_of_mem_dropWhile isWhitespace s c (hd ▸ List.mem_cons_self _ _)
  have hc0 : c ≠ 0 := fun e => h0 (e ▸ hcmem)
  rw [nextTok, hd] at he
  rcases nextTokCore_cases c cs with ⟨-, tt, htt, heq⟩ | ⟨-, heq⟩ | ⟨-, heq⟩ |
      ⟨-, -, -, h00, -⟩ | ⟨-, -, -, -, heq⟩
  · rw [heq cs] at he
    exact symbolTypes_ne_eof tt htt he
  · rw [heq] at he
    exact lookupIdent_ne_eof _ he
  · rw [heq] at he
    exact absurd he (show ¬ token.INT = token.EOF by decide)
  · exact hc0 h00
  · rw [heq] at he
    exact absurd he (show ¬ token.ILLEGAL = token.EOF by decide)

theorem pureAdv_zeroFree (s : List Nat) (h0 : (0 : Nat) ∉ s) (k : Nat) :
    (0 : Nat) ∉ pureAdv^[k] s := by
  induction k with
  | zero => exact h0
  | succ k ih =>
    rw [Function.iterate_succ_apply']
    intro hmem
    exact ih (nextTok_snd_mem _ 0 hmem)

end Monkey

namespace Monkey

open token lexer

/-! ### All-letter inputs -/

theorem pureTokens_letters (x : List Nat) (hne : x ≠ [])
    (hall : ∀ c ∈ x, isLetter c = true) :
    pureTokens x = [{ type := token.LookupIdent x, literal := x }, eofToken] := by
  rcases x with - | ⟨c, cs⟩
  · exact absurd rfl hne
  have hLc : isLetter c = true := hall c (List.mem_cons_self _ _)
  have hx : nextTok (c :: cs) =
      ({ type := token.LookupIdent (c :: cs), literal := c :: cs }, []) := by
    rw [nextTok_of_head c cs (isLetter_not_ws c hLc), nextTokCore_letter c cs hLc,
      takeWhile_all isLetter (c :: cs) hall, dropWhile_all isLetter (c :: cs) hall]
  rw [pureTokens_eq, hx, if_neg (lookupIdent_ne_eof (c :: cs)), pureTokens_nil]

/-! ### The position of the first EOF token in the call sequence -/

theorem firstEof_pure :
    ∀ (b : Nat) (s : List Nat), s.length ≤ b →
      (nextTok (pureAdv^[(pureTokens s).length - 1] s)).1.type = token.EOF ∧
      ∀ k, k < (pureTokens s).length - 1 →
        (nextTok (pureAdv^[k] s)).1.type ≠ token.EOF := by
  intro b
  induction b with
  | zero =>
    intro s hb
    have hs : s = [] := List.length_eq_zero.mp (Nat.le_zero.mp hb)
    subst hs
    rw [pureTokens_nil]
    exact ⟨rfl, fun k hk => absurd hk (by simp)⟩
  | succ b ih =>
    intro s hb
    by_cases he : (nextTok s).1.type = token.EOF
    · rw [pureTokens_eq, if_pos he]
      exact ⟨he, fun k hk => absurd hk (by simp)⟩
    · rw [pureTokens_eq, if_neg he]
      have hdec := nextTok_dec s he
      obtain ⟨ha, hb2⟩ := ih (nextTok s).2 (by omega)
      have hlen : ((nextTok s).1 :: pureTokens (nextTok s).2).length - 1 =
          (pureTokens (nextTok s).2).length := by
        simp
      rw [hlen]
      have hpos : 0 < (pureTokens (nextTok s).2).length :=
        List.length_pos.mpr (pureTokens_ne_nil (nextTok s).2)
      constructor
      · obtain ⟨m, hm⟩ : ∃ m, (pureTokens (nextTok s).2).length = m + 1 :=
          ⟨_, (Nat.succ_pred_eq_of_pos hpos).symm⟩
        rw [hm, Function.iterate_succ_apply]
        have : pureAdv s = (nextTok s).2 := rfl
        rw [this]
        have := hm ▸ ha
        simpa using this
      · intro k hk
        cases k with
        | zero => exact he
        | succ k =>
          rw [Function.iterate_succ_apply]
          have : pureAdv s = (nextTok s).2 := rfl
          rw [this]
          exact hb2 k (by omega)

/-! ### Reachable states are well-formed -/

theorem reachable_canon (input : List Nat) (l : Lexer) (h : Reachable input l) :
    Canon l := by
  induction h with
  | start => exact New_canon input
  | step l' hr ih => exact (nextToken_sim l' ih).2.1

/-! ### Literal shape of every produced token -/

theorem lookupIdent_not_illegal (s : List Nat) : token.LookupIdent s ≠ token.ILLEGAL := by
  rcases lookupIdent_mem s with h | h | h <;> rw [h] <;> decide

theorem lookupIdent_not_symbolType (s : List Nat) :
    token.LookupIdent s ∉ symbolTypes := by
  rcases lookupIdent_mem s with h | h | h <;> rw [h] <;> decide

theorem nextTok_literal_spec (s : List Nat) :
    ((nextTok s).1.literal = [] ↔ (nextTok s).1.type = token.EOF) ∧
    ((nextTok s).1.type ∈ symbolTypes → (nextTok s).1.literal.length = 1) ∧
    ((nextTok s).1.type = token.ILLEGAL →
      (nextTok s).1.literal.length = 1 ∨ (nextTok s).1.literal.length = 2) := by
  rw [nextTok]
  rcases hd : s.dropWhile isWhitespace with - | ⟨a, as⟩
  · refine ⟨by simp [nextTokCore, eofToken], fun h => absurd h ?_, fun h => absurd h ?_⟩
    · exact show token.EOF ∉ symbolTypes by decide
    · exact show ¬ token.EOF = token.ILLEGAL by decide
  rcases nextTokCore_cases a as with ⟨hs2, tt, htt, heq⟩ | ⟨hL, heq⟩ | ⟨hD, heq⟩ |
      ⟨-, -, -, -, heq⟩ | ⟨-, -, -, -, heq⟩
  · rw [heq as]
    refine ⟨?_, fun _ => ?_, fun _ => ?_⟩
    · constructor
      · intro h
        exact absurd h (stringOfChar_ne_nil a)
      · intro h
        exact absurd h (symbolTypes_ne_eof tt htt)
    · show (stringOfChar a).length = 1
      rw [stringOfChar_ascii a (isSymbol_lt128 a hs2)]
      rfl
    · exact Or.inl (by
        show (stringOfChar a).length = 1
        rw [stringOfChar_ascii a (isSymbol_lt128 a hs2)]
        rfl)
  · rw [heq]
    have htw : (a :: as).takeWhile isLetter = a :: as.takeWhile isLetter := by
      rw [List.takeWhile_cons, if_pos hL]
    refine ⟨?_, fun h => ?_, fun h => ?_⟩
    · show (a :: as).takeWhile isLetter = [] ↔
        token.LookupIdent ((a :: as).takeWhile isLetter) = token.EOF
      rw [htw]
      constructor
      · intro h
        cases h
      · intro h
        exact absurd h (lookupIdent_ne_eof _)
    · exact absurd h (lookupIdent_not_symbolType _)
    · exact absurd h (lookupIdent_not_illegal _)
  · rw [heq]
    have htw : (a :: as).takeWhile isDigit = a :: as.takeWhile isDigit := by
      rw [List.takeWhile_cons, if_pos hD]
    refine ⟨?_, fun h => ?_, fun h => ?_⟩
    · show (a :: as).takeWhile isDigit = [] ↔ token.INT = token.EOF
      rw [htw]
      constructor
      · intro h
        cases h
      · intro h
        exact absurd h (by decide)
    · exact absurd h (show token.INT ∉ symbolTypes by decide)
    · exact absurd h (show ¬ token.INT = token.ILLEGAL by decide)
  · rw [heq]
    refine ⟨by simp [eofToken], fun h => absurd h ?_, fun h => absurd h ?_⟩
    · exact show token.EOF ∉ symbolTypes by decide
    · exact show ¬ token.EOF = token.ILLEGAL by decide
  · rw [heq]
    refine ⟨?_, fun h => absurd h ?_, fun _ => ?_⟩
    · constructor
      · intro h
        exact absurd h (stringOfChar_ne_nil a)
      · intro h
        exact absurd h (show ¬ token.ILLEGAL = token.EOF by decide)
    · exact show token.ILLEGAL ∉ symbolTypes by decide
    · exact stringOfChar_length a

/-! ### Skipping is a no-op on non-whitespace, and the ILLEGAL branch -/

theorem skipWhitespace_noop (l : Lexer) (h : isWhitespace l.ch = false) :
    skipWhitespace l = l := by
  rw [skipWhitespace_eq l, h]
  simp

theorem classify_zero (l : Lexer) (h : l.ch = 0) :
    classify l = ({ type := token.EOF, literal := [] }, readChar l) := by
  unfold classify
  rw [h, if_neg (show ¬ (0 : Nat) = 61 by decide), if_neg (show ¬ (0 : Nat) = 43 by decide),
    if_neg (show ¬ (0 : Nat) = 45 by decide), if_neg (show ¬ (0 : Nat) = 33 by decide),
    if_neg (show ¬ (0 : Nat) = 47 by decide), if_neg (show ¬ (0 : Nat) = 42 by decide),
    if_neg (show ¬ (0 : Nat) = 60 by decide), if_neg (show ¬ (0 : Nat) = 62 by decide),
    if_neg (show ¬ (0 : Nat) = 59 by decide), if_neg (show ¬ (0 : Nat) = 44 by decide),
    if_neg (show ¬ (0 : Nat) = 40 by decide), if_neg (show ¬ (0 : Nat) = 41 by decide),
    if_neg (show ¬ (0 : Nat) = 123 by decide), if_neg (show ¬ (0 : Nat) = 125 by decide),
    if_neg (show ¬ isLetter 0 = true by decide), if_neg (show ¬ isDigit 0 = true by decide),
    if_pos rfl]

theorem classify_illegal (l : Lexer) (hs : isSymbol l.ch = false)
    (hL : isLetter l.ch = false) (hD : isDigit l.ch = false) (h0 : l.ch ≠ 0) :
    classify l = (newToken token.ILLEGAL l.ch, readChar l) := by
  obtain ⟨n1, n2, n3, n4, n5, n6, n7, n8, n9, n10, n11, n12, n13, n14⟩ :=
    isSymbol_elim l.ch hs
  unfold classify
  rw [if_neg n1, if_neg n2, if_neg n3, if_neg n4, if_neg n5, if_neg n6, if_neg n7,
    if_neg n8, if_neg n9, if_neg n10, if_neg n11, if_neg n12, if_neg n13, if_neg n14,
    if_neg (by simp [hL]), if_neg (by simp [hD]), if_neg h0]

end Monkey

namespace Monkey

open token lexer

/-! ## The claims -/

/-- Claim C1, counterexample to the claim as stated: for the input
`"\x00a"` (a NUL byte followed by `'a'`), the first `NextToken` call yields
an EOF token (the NUL byte is read as the end-of-input sentinel), yet the
second call yields a non-EOF token (`IDENT "a"`).  So a non-EOF token can
be produced after an EOF token. -/
theorem claim1_counterexample :
    (tokenAt (New [0, 97]) 0).type = token.EOF ∧
    (tokenAt (New [0, 97]) 1).type ≠ token.EOF ∧
    tokenAt (New [0, 97]) 1 = { type := token.IDENT, literal := [97] } := by
  decide

/-- Claim C1 (amended: the input contains no NUL byte): for every NUL-free
input, once `NextToken` yields an EOF token, every subsequent call on the
same scanner also yields the EOF token with empty Literal. -/
theorem claim1_amended (input : List Nat) (m n : Nat) (h0 : (0 : Nat) ∉ input)
    (hmn : m ≤ n) (hm : (tokenAt (New input) m).type = token.EOF) :
    tokenAt (New input) n = eofToken := by
  have hc := New_canon input
  have htr : ∀ k, tokenAt (New input) k = (nextTok (pureAdv^[k] input)).1 := by
    intro k
    rw [tokenAt_pure (New input) hc k, rest_New]
  rw [htr m] at hm
  have hnil : (pureAdv^[m] input).dropWhile isWhitespace = [] :=
    nextTok_eof_ws_nil _ (pureAdv_zeroFree input h0 m) hm
  have hall : ∀ j, (pureAdv^[m + j] input).dropWhile isWhitespace = [] := by
    intro j
    induction j with
    | zero => simpa using hnil
    | succ j ihj =>
      have hidx : m + (j + 1) = (m + j) + 1 := by omega
      rw [hidx, Function.iterate_succ_apply']
      have hadv : pureAdv (pureAdv^[m + j] input) = [] := by
        show (nextTok _).2 = []
        rw [nextTok_of_ws_nil _ ihj]
      rw [hadv]
      rfl
  obtain ⟨j, rfl⟩ := Nat.exists_eq_add_of_le hmn
  rw [htr (m + j), nextTok_of_ws_nil _ (hall j)]

/-- Witness for `claim1_amended` at the NUL-free input `"a"`:
the second call yields EOF, so does the third. -/
theorem claim1_witness : tokenAt (New [97]) 2 = eofToken :=
  claim1_amended [97] 1 2 (by decide) (by decide) (by decide)

/-- Claim C2, counterexample to the claim as stated, on two counts: byte
value 0 is not a symbol, letter, digit or whitespace, yet `NextToken`
classifies it as the end-of-input sentinel and returns EOF with empty
Literal, not ILLEGAL with the byte as Literal; and for the non-ASCII byte
200 (0xC8), which the claim also covers, the ILLEGAL token's Literal is
Go's `string(200)` = the two-byte UTF-8 encoding `"\xc3\x88"` = [195, 136],
not the single byte [200]. -/
theorem claim2_counterexample :
    ((NextToken (New [0])).1.type = token.EOF ∧
      (NextToken (New [0])).1.type ≠ token.ILLEGAL ∧
      (NextToken (New [0])).1.literal ≠ [0]) ∧
    ((NextToken (New [200])).1.type = token.ILLEGAL ∧
      (NextToken (New [200])).1.literal = [195, 136] ∧
      (NextToken (New [200])).1.literal ≠ [200]) := by
  decide

/-- Claim C2 (amended: the unclassifiable byte must also be nonzero, and
the Literal is Go's `string(ch)`): when the current character is not
whitespace, not one of the 14 fixed symbols, not a letter or underscore,
not a digit, and not the byte 0, `NextToken` returns an ILLEGAL token whose
Literal is `string(ch)` — the UTF-8 encoding of that byte: the byte itself
for 0..127, its two-byte encoding for 128..255 — and advances exactly one
character; the byte 0 is instead treated as the end-of-input sentinel
(sixth category).  The scanner is total: no error path exists. -/
theorem claim2_amended (l : Lexer) (hw : isWhitespace l.ch = false)
    (hs : isSymbol l.ch = false) (hL : isLetter l.ch = false)
    (hD : isDigit l.ch = false) (h0 : l.ch ≠ 0) :
    NextToken l = ({ type := token.ILLEGAL, literal := stringOfChar l.ch }, readChar l) := by
  show classify (skipWhitespace l) = _
  rw [skipWhitespace_noop l hw, classify_illegal l hs hL hD h0]
  rfl

/-- Witness for `claim2_amended` at the byte `'@'` = 64 (ASCII, so the
Literal is the single byte). -/
theorem claim2_witness :
    NextToken (New [64]) = ({ type := token.ILLEGAL, literal := [64] }, readChar (New [64])) :=
  claim2_amended (New [64]) (by decide) (by decide) (by decide) (by decide) (by decide)

/-- Claim C3, counterexample to the claim as stated: on the empty input the
current character is the sentinel and `NextToken` returns EOF with empty
Literal, but the state fields are NOT unchanged: the EOF branch of the
switch falls through to `readChar`, so `position` and `readPosition` both
advance by one. -/
theorem claim3_counterexample :
    (NextToken (New [])).1.type = token.EOF ∧
    (NextToken (New [])).1.literal = [] ∧
    (NextToken (New [])).2.position = 1 ∧ (New ([] : List Nat)).position = 0 ∧
    (NextToken (New [])).2.readPosition = 2 ∧ (New ([] : List Nat)).readPosition = 1 ∧
    (New ([0, 97] : List Nat)).ch = 0 ∧ (NextToken (New [0, 97])).2.ch = 97 := by
  decide

/-- Claim C3 (amended): when the current character is the sentinel 0,
`NextToken` returns EOF with empty Literal but still performs the one
trailing `readChar` that all non-identifier/non-digit branches of the
switch share: in the returned state, `position` equals the old
`readPosition`, `readPosition` has incremented by one, the input is
untouched, and `ch` remains the sentinel whenever the read position is at
or past the end of the input (which is why repeated calls still return EOF
on NUL-free inputs). -/
theorem claim3_amended (l : Lexer) (h : l.ch = 0) :
    NextToken l = ({ type := token.EOF, literal := [] }, readChar l) ∧
    (NextToken l).2.position = l.readPosition ∧
    (NextToken l).2.readPosition = l.readPosition + 1 ∧
    (NextToken l).2.input = l.input ∧
    (l.input.length ≤ l.readPosition → (NextToken l).2.ch = 0) := by
  have hmain : NextToken l = ({ type := token.EOF, literal := [] }, readChar l) := by
    show classify (skipWhitespace l) = _
    rw [skipWhitespace_noop l (by rw [h]; decide), classify_zero l h]
  refine ⟨hmain, ?_, ?_, ?_, ?_⟩
  · rw [hmain]
    rfl
  · rw [hmain]
    rfl
  · rw [hmain]
    rfl
  · intro hle
    rw [hmain]
    show (if l.input.length ≤ l.readPosition then 0 else _) = 0
    rw [if_pos hle]

/-- Witness for `claim3_amended` at the freshly constructed empty-input
scanner. -/
theorem claim3_witness :
    NextToken (New []) = ({ type := token.EOF, literal := [] }, readChar (New [])) ∧
    (NextToken (New ([] : List Nat))).2.position = (New ([] : List Nat)).readPosition ∧
    (NextToken (New ([] : List Nat))).2.readPosition =
      (New ([] : List Nat)).readPosition + 1 ∧
    (NextToken (New ([] : List Nat))).2.input = (New ([] : List Nat)).input ∧
    ((New ([] : List Nat)).input.length ≤ (New ([] : List Nat)).readPosition →
      (NextToken (New ([] : List Nat))).2.ch = 0) :=
  claim3_amended (New []) (by decide)

/-- Claim C4: every `NextToken` call terminates (`NextToken` is a total
function whose three internal loops are fuel-bounded with provably
sufficient fuel, see `loopWhile_eq`), and on every finite input the call
numbered `numLexemes input + 1` (0-indexed: `tokenAt _ (numLexemes input)`)
returns EOF while all earlier calls return non-EOF tokens — the scanner
reaches EOF after exactly the number of lexemes plus one calls. -/
theorem claim4 (input : List Nat) :
    (tokenAt (New input) (numLexemes input)).type = token.EOF ∧
    ∀ k, k < numLexemes input → (tokenAt (New input) k).type ≠ token.EOF := by
  have hc := New_canon input
  have htr : ∀ k, tokenAt (New input) k = (nextTok (pureAdv^[k] input)).1 := by
    intro k
    rw [tokenAt_pure (New input) hc k, rest_New]
  have hnum : numLexemes input = (pureTokens input).length - 1 := by
    rw [numLexemes, tokenize_eq_pure]
  obtain ⟨ha, hb⟩ := firstEof_pure input.length input (le_refl _)
  constructor
  · rw [htr, hnum]
    exact ha
  · intro k hk
    rw [htr]
    exact hb k (by rwa [hnum] at hk)

/-- Witness for `claim4` at the input `"+"`: the second call is the first
EOF. -/
theorem claim4_witness :
    (tokenAt (New [43]) (numLexemes [43])).type = token.EOF ∧
    (tokenAt (New [43]) 0).type ≠ token.EOF :=
  ⟨(claim4 [43]).1, (claim4 [43]).2 0 (by decide)⟩

end Monkey

namespace Monkey

open token lexer

/-- Claim C5, counterexample to the claim as stated: `"a b"` and `"ab"`
differ only by removal of the space between the two lexemes `"a"` and
`"b"`, yet they scan to different token sequences (`IDENT "a", IDENT "b"`
versus the merged `IDENT "ab"`): removing all whitespace between two
letter runs merges them. -/
theorem claim5_counterexample : tokenize [97, 32, 98] ≠ tokenize [97, 98] := by
  decide

/-- Claim C5 (amended with the merge proviso the counterexample forces):
any two interleavings of the same lexeme sequence with whitespace-only
separators produce identical token sequences, provided every boundary whose
separator is empty is merge-safe (a letter run is not directly followed by
a letter, a digit run not by a digit); and no produced token's Literal ever
contains a whitespace byte, on any input whatsoever. -/
theorem claim5_amended :
    (∀ (w0 w0' : List Nat) (ps qs : List (List Nat × List Nat)),
      AllWS w0 → AllWS w0' →
      (∀ p ∈ ps, IsLexeme p.1 ∧ AllWS p.2) →
      (∀ p ∈ qs, IsLexeme p.1 ∧ AllWS p.2) →
      OkSeps ps → OkSeps qs → ps.map Prod.fst = qs.map Prod.fst →
      tokenize (w0 ++ joinPairs ps) = tokenize (w0' ++ joinPairs qs)) ∧
    (∀ input : List Nat, ∀ t ∈ tokenize input, ∀ c ∈ t.literal,
      isWhitespace c = false) := by
  constructor
  · intro w0 w0' ps qs hw0 hw0' hps hqs hsep1 hsep2 hmap
    rw [tokenize_eq_pure, tokenize_eq_pure, pureTokens_ws_strip w0 hw0,
      pureTokens_ws_strip w0' hw0', pureTokens_joinPairs ps hps hsep1,
      pureTokens_joinPairs qs hqs hsep2]
    have hmaps : ps.map (fun p => (nextTok p.1).1) = qs.map (fun p => (nextTok p.1).1) := by
      have h := congrArg (List.map (fun x => (nextTok x).1)) hmap
      rw [List.map_map, List.map_map] at h
      exact h
    rw [hmaps]
  · intro input t ht c hc
    rw [tokenize_eq_pure] at ht
    exact pureTokens_literal_ws input.length input (le_refl _) t ht c hc

/-- Witness for `claim5_amended`: `" a "` and `"a "` (leading space removed)
scan identically. -/
theorem claim5_witness :
    tokenize ([32] ++ joinPairs [([97], [32])]) =
      tokenize ([] ++ joinPairs [([97], [32])]) :=
  claim5_amended.1 [32] [] [([97], [32])] [([97], [32])]
    (by unfold AllWS; decide) (by unfold AllWS; decide)
    (by
      intro p hp
      rcases List.mem_singleton.mp hp with rfl
      exact ⟨IsLexeme.ident [97] (by decide) (by decide), by unfold AllWS; decide⟩)
    (by
      intro p hp
      rcases List.mem_singleton.mp hp with rfl
      exact ⟨IsLexeme.ident [97] (by decide) (by decide), by unfold AllWS; decide⟩)
    ⟨fun h => absurd h (by decide), trivial⟩
    ⟨fun h => absurd h (by decide), trivial⟩
    rfl

/-- Claim C6, counterexample to the claim as stated: the empty input
vacuously consists solely of letters and underscores, but it yields zero
tokens before the terminal EOF, not exactly one. -/
theorem claim6_counterexample : tokenize [] = [eofToken] := by
  decide

/-- Claim C6 (amended: the input must be nonempty): every nonempty input
consisting solely of ASCII letters and underscores scans to exactly one
token before the terminal EOF, whose Literal is the whole input and whose
Type is resolved by keyword lookup on the full span — the run is consumed
maximally, never split mid-word. -/
theorem claim6_amended (input : List Nat) (hne : input ≠ [])
    (hall : ∀ c ∈ input, isLetter c = true) :
    tokenize input = [{ type := token.LookupIdent input, literal := input }, eofToken] := by
  rw [tokenize_eq_pure]
  exact pureTokens_letters input hne hall

/-- Witness for `claim6_amended` at the input `"a_b"`. -/
theorem claim6_witness :
    tokenize [97, 95, 98] =
      [{ type := token.LookupIdent [97, 95, 98], literal := [97, 95, 98] }, eofToken] :=
  claim6_amended [97, 95, 98] (by decide) (by decide)

/-- Claim C7: `"let"` scans to `[LET "let", EOF ""]` and `"lett"` to
`[IDENT "lett", EOF ""]`; in general a letter run is classified by looking
the full consumed lexeme up in the keyword table — keyword tag exactly when
present (`"fn"`, `"let"`), IDENT otherwise. -/
theorem claim7 :
    tokenize [108, 101, 116] =
      [{ type := token.LET, literal := [108, 101, 116] }, eofToken] ∧
    tokenize [108, 101, 116, 116] =
      [{ type := token.IDENT, literal := [108, 101, 116, 116] }, eofToken] ∧
    ∀ x : List Nat, x ≠ [] → (∀ c ∈ x, isLetter c = true) →
      tokenize x = [{ type := token.LookupIdent x, literal := x }, eofToken] ∧
      (token.LookupIdent x = token.IDENT ↔ x ≠ [102, 110] ∧ x ≠ [108, 101, 116]) := by
  refine ⟨by decide, by decide, fun x hne hall => ⟨?_, ?_⟩⟩
  · rw [tokenize_eq_pure]
    exact pureTokens_letters x hne hall
  · rw [lookupIdent_spec]
    by_cases h1 : x = [102, 110]
    · rw [if_pos h1]
      constructor
      · intro h
        exact absurd h (by decide)
      · intro h
        exact absurd h1 h.1
    rw [if_neg h1]
    by_cases h2 : x = [108, 101, 116]
    · rw [if_pos h2]
      constructor
      · intro h
        exact absurd h (by decide)
      · intro h
        exact absurd h2 h.2
    rw [if_neg h2]
    exact ⟨fun _ => ⟨h1, h2⟩, fun _ => rfl⟩

/-- Witness for the general clause of `claim7` at the keyword `"fn"`. -/
theorem claim7_witness :
    tokenize [102, 110] =
      [{ type := token.LookupIdent [102, 110], literal := [102, 110] }, eofToken] :=
  (claim7.2.2 [102, 110] (by decide) (by decide)).1

/-- Claim C8: on every scanner state reachable from construction by
`NextToken` calls, `readPosition = position + 1` holds (`New` itself
performs the priming `readChar`, which establishes the invariant, and
every internal advance preserves it). -/
theorem claim8 (input : List Nat) (l : Lexer) (h : Reachable input l) :
    l.readPosition = l.position + 1 :=
  (reachable_canon input l h).1

/-- Witness for `claim8` at the freshly constructed empty-input scanner. -/
theorem claim8_witness : (New ([] : List Nat)).readPosition = (New []).position + 1 :=
  claim8 [] (New []) Reachable.start

/-- Claim C9: the keyword lookup maps `"fn"` to FUNCTION and `"let"` to
LET and returns IDENT on every other string, so FUNCTION and LET are the
only keyword tags it can ever hand to the scanner. -/
theorem claim9 (s : List Nat) :
    token.LookupIdent s =
      if s = [102, 110] then token.FUNCTION
      else if s = [108, 101, 116] then token.LET
      else token.IDENT :=
  lookupIdent_spec s

/-- Claim C10, counterexample to the claim as stated: scanning the
non-ASCII byte 200 (0xC8) produces an ILLEGAL token whose Literal is Go's
`string(200)` — the two-byte UTF-8 encoding `"\xc3\x88"` = [195, 136] — so
an ILLEGAL token's Literal is not always exactly one byte. -/
theorem claim10_counterexample :
    (NextToken (New [200])).1.type = token.ILLEGAL ∧
    (NextToken (New [200])).1.literal = [195, 136] ∧
    (NextToken (New [200])).1.literal.length ≠ 1 := by
  decide

/-- Claim C10 (amended: ILLEGAL literals may be the two-byte UTF-8
encoding): on every reachable scanner state, the token returned by
`NextToken` has an empty Literal exactly when its Type is EOF (identifier,
keyword and INT literals are nonempty because the consuming loops run at
least once); every fixed-symbol token has a Literal of exactly one byte,
and every ILLEGAL token's Literal — `string(ch)`, the UTF-8 encoding of
the offending byte — has exactly one byte for bytes 0..127 and exactly two
bytes for bytes 128..255, so its length is one or two. -/
theorem claim10_amended (input : List Nat) (l : Lexer) (h : Reachable input l) :
    ((NextToken l).1.literal = [] ↔ (NextToken l).1.type = token.EOF) ∧
    ((NextToken l).1.type ∈ symbolTypes → (NextToken l).1.literal.length = 1) ∧
    ((NextToken l).1.type = token.ILLEGAL →
      (NextToken l).1.literal.length = 1 ∨ (NextToken l).1.literal.length = 2) := by
  have hc := reachable_canon input l h
  have ht := (nextToken_sim l hc).1
  rw [ht]
  exact nextTok_literal_spec (rest l)

/-- Witness for `claim10_amended` at the freshly constructed empty-input
scanner. -/
theorem claim10_witness :
    ((NextToken (New ([] : List Nat))).1.literal = [] ↔
      (NextToken (New [])).1.type = token.EOF) ∧
    ((NextToken (New [])).1.type ∈ symbolTypes →
      (NextToken (New [])).1.literal.length = 1) ∧
    ((NextToken (New [])).1.type = token.ILLEGAL →
      (NextToken (New [])).1.literal.length = 1 ∨
      (NextToken (New [])).1.literal.length = 2) :=
  claim10_amended [] (New []) Reachable.start

end Monkey
